import Mathlib

/-!
Shallow embedding of the fullerene simulated-annealing program (src/main.rs).
Rust f64 arithmetic is modelled by the real numbers; the `rand` draws become
explicit real-valued parameters (u1, u2, ...) of the state-transforming
functions, and in-place mutation becomes explicit state passing on the
`Fuleren` record.
-/

noncomputable section

/-- Model parameter `R0` from the source header. -/
def R0 : ℝ := 1.315

/-- Model parameter `R1` (inner cutoff radius). -/
def R1 : ℝ := 1.7

/-- Model parameter `R2` (outer cutoff radius). -/
def R2 : ℝ := 2.0

/-- Model parameter `De` (well depth). -/
def De : ℝ := 6.325

/-- Model parameter `S` (stiffness ratio). -/
def S : ℝ := 1.29

/-- Model parameter `lambda` (decay rate). -/
def lambda : ℝ := 1.5

/-- Model parameter `del` (bond-order exponent). -/
def del : ℝ := 0.80469

/-- Angular-correction constant `a0`. -/
def a0 : ℝ := 0.011304

/-- Angular-correction constant `c0`. -/
def c0 : ℝ := 19

/-- Angular-correction constant `d0`. -/
def d0 : ℝ := 2.5

/-- The `Point6` struct: a 3D point stored redundantly in Cartesian
(x, y, z) and spherical (r, phi, theta) coordinates. -/
@[ext]
structure Point6 where
  x : ℝ
  y : ℝ
  z : ℝ
  r : ℝ
  phi : ℝ
  theta : ℝ

/-- `Point6::new`: the all-zero point. -/
def Point6.new : Point6 := ⟨0, 0, 0, 0, 0, 0⟩

/-- `Point6::from_cartesian`: build all six fields from a Cartesian triple. -/
def Point6.from_cartesian (x y z : ℝ) : Point6 :=
  { x := x
    y := y
    z := z
    r := Real.sqrt (x ^ 2 + y ^ 2 + z ^ 2)
    phi := Real.arctan (y / x)
    theta := Real.arccos (z / Real.sqrt (x ^ 2 + y ^ 2 + z ^ 2)) }

/-- `Point6::from_spherical`: build all six fields from a spherical triple. -/
def Point6.from_spherical (r phi theta : ℝ) : Point6 :=
  { x := r * Real.sin theta * Real.cos phi
    y := r * Real.sin theta * Real.sin phi
    z := r * Real.cos theta
    r := r
    phi := phi
    theta := theta }

/-- `Point6::assert_angles`: single wrap-around correction of phi into
[0, 2*pi] and theta into [0, pi]. -/
def Point6.assert_angles (p : Point6) : Point6 :=
  { p with
    phi :=
      if p.phi < 0 then p.phi + 2 * Real.pi
      else if p.phi > 2 * Real.pi then p.phi - 2 * Real.pi
      else p.phi
    theta :=
      if p.theta < 0 then p.theta + Real.pi
      else if p.theta > Real.pi then p.theta - Real.pi
      else p.theta }

/-- The `Fuleren` struct: atom positions, atom count, cached total energy. -/
structure Fuleren where
  positions : List Point6
  size : ℕ
  E : ℝ

/-- Indexing `self.positions[i]` (total model: out-of-range reads the
all-zero point). -/
def pos (s : Fuleren) (i : ℕ) : Point6 := s.positions.getD i Point6.new

/-- `_mod_arr`: Euclidean norm of a 3-vector. -/
def mod_arr (a b c : ℝ) : ℝ := Real.sqrt (a ^ 2 + b ^ 2 + c ^ 2)

/-- `_v_r`: repulsive radial term of the Brenner potential. -/
def v_r (r : ℝ) : ℝ :=
  De / (S - 1) * Real.exp (-Real.sqrt (2 * S) * lambda * (r - R0))

/-- `_v_a`: attractive radial term of the Brenner potential. -/
def v_a (r : ℝ) : ℝ :=
  De * S / (S - 1) * Real.exp (-Real.sqrt (2 / S) * lambda * (r - R0))

/-- `Fuleren::_r_ij`: distance between atoms i and j. -/
def r_ij (s : Fuleren) (i j : ℕ) : ℝ :=
  mod_arr ((pos s j).x - (pos s i).x) ((pos s j).y - (pos s i).y)
    ((pos s j).z - (pos s i).z)

/-- `Fuleren::_g_ijk`: angular correction for the angle at atom i between
bonds to j and k, with the cos > 0 penalty branch. -/
def g_ijk (s : Fuleren) (i j k : ℕ) : ℝ :=
  let cos_ijk :=
    (((pos s j).x - (pos s i).x) * ((pos s k).x - (pos s i).x) +
        ((pos s j).y - (pos s i).y) * ((pos s k).y - (pos s i).y) +
        ((pos s j).z - (pos s i).z) * ((pos s k).z - (pos s i).z)) /
      mod_arr ((pos s j).x - (pos s i).x) ((pos s j).y - (pos s i).y)
        ((pos s j).z - (pos s i).z) /
      mod_arr ((pos s k).x - (pos s i).x) ((pos s k).y - (pos s i).y)
        ((pos s k).z - (pos s i).z)
  if cos_ijk > 0 then 20
  else a0 * (1 + c0 ^ 2 / d0 ^ 2 - c0 ^ 2 / (d0 ^ 2 + (1 + cos_ijk) ^ 2))

/-- `Fuleren::_ksi_ij`: cutoff-weighted sum of angular corrections over
third atoms k distinct from i and j. -/
def ksi_ij (s : Fuleren) (i j : ℕ) : ℝ :=
  ∑ k ∈ (Finset.range s.size).filter (fun k => k ≠ i ∧ k ≠ j),
    (if r_ij s i k ≤ R1 then g_ijk s i j k
     else if r_ij s i k ≤ R2 then
       0.5 * (1 + Real.cos ((r_ij s i k - R1) / (R2 - R1) * Real.pi)) *
         g_ijk s i j k
     else 0)

/-- `Fuleren::_b_ij`: bond-order factor for the ordered pair (i, j). -/
def b_ij (s : Fuleren) (i j : ℕ) : ℝ := (1 + ksi_ij s i j) ^ (-del)

/-- `Fuleren::_vi`: per-atom energy contribution of atom i. -/
def vi (s : Fuleren) (i : ℕ) : ℝ :=
  ∑ j ∈ (Finset.range s.size).filter (fun j => j ≠ i),
    (if r_ij s i j ≤ R1 then
       v_r (r_ij s i j) - 0.5 * (b_ij s i j + b_ij s j i) * v_a (r_ij s i j)
     else if r_ij s i j ≤ R2 then
       0.5 * (1 + Real.cos ((r_ij s i j - R1) / (R2 - R1) * Real.pi)) *
         (v_r (r_ij s i j) - 0.5 * (b_ij s i j + b_ij s j i) * v_a (r_ij s i j))
     else 0)

/-- The value returned by `Fuleren::energy_calc`: half the sum of the
per-atom contributions. -/
def energyOf (s : Fuleren) : ℝ := 0.5 * ∑ i ∈ Finset.range s.size, vi s i

/-- `Fuleren::energy_calc`: caches the total energy in field E and returns
it (state-passing model of the `&mut self` method). -/
def energy_calc (s : Fuleren) : Fuleren × ℝ := ({ s with E := energyOf s }, energyOf s)

/-- Cutoff weighting f_c written following the wording of the spec
(section 4.1): 1 up to R1, cosine interpolation up to R2, 0 beyond. Used
only to compare the code's branch structure with the spec's formula. -/
def f_c (r : ℝ) : ℝ :=
  if r ≤ R1 then 1
  else if r ≤ R2 then 0.5 * (1 + Real.cos ((r - R1) / (R2 - R1) * Real.pi))
  else 0

/-- Per-atom contribution written following the wording of the spec: for
every other atom j with r_ij ≤ R2, add f_c(r_ij) * (v_r − B_ij * v_a) with
the symmetrized bond order; pairs beyond R2 contribute nothing. -/
def viSpec (s : Fuleren) (i : ℕ) : ℝ :=
  ∑ j ∈ (Finset.range s.size).filter (fun j => j ≠ i),
    (if r_ij s i j ≤ R2 then
       f_c (r_ij s i j) *
         (v_r (r_ij s i j) - 0.5 * (b_ij s i j + b_ij s j i) * v_a (r_ij s i j))
     else 0)

/-- The Metropolis acceptance probability as computed inline by both
`random_atom_shift` and `random_global_r_shift`:
exp(-beta*(v_new - v_old)) clamped to at most 1. -/
def p_acc (beta v_new v_old : ℝ) : ℝ :=
  if Real.exp (-beta * (v_new - v_old)) < 1 then Real.exp (-beta * (v_new - v_old))
  else 1

/-- `Fuleren::random_atom_shift`: local Monte Carlo move on atom i, with
the four uniform draws passed explicitly. Returns the new state and the
accept/reject flag. -/
def random_atom_shift (s : Fuleren) (i : ℕ) (beta u1 u2 u3 u4 : ℝ) :
    Fuleren × Bool :=
  let w_r : ℝ := 1e-4
  let w_phi : ℝ := 0.05
  let w_theta : ℝ := 0.05
  let a := pos s i
  let v_old := vi s i
  let aMid := Point6.assert_angles
    { a with
      r := a.r + a.r * (2 * u1 - 1) * w_r
      phi := a.phi + a.phi * (2 * u2 - 1) * w_phi
      theta := a.theta + a.theta * (2 * u3 - 1) * w_theta }
  let aNew := Point6.from_spherical aMid.r aMid.phi aMid.theta
  let s1 : Fuleren := { s with positions := s.positions.set i aNew }
  let v_new := vi s1 i
  if u4 ≤ p_acc beta v_new v_old then (s1, true)
  else ({ s1 with positions := s1.positions.set i (Point6.from_spherical a.r a.phi a.theta) },
        false)

/-- The position array after the global radial rescale proposed by
`random_global_r_shift` with draw u1: every atom rebuilt via
`from_spherical` with its radius scaled by 1 + w_all*(2*u1 - 1). -/
def scaledPositions (s : Fuleren) (u1 : ℝ) : List Point6 :=
  s.positions.map
    (fun a => Point6.from_spherical (a.r * (1 + 1e-4 * (2 * u1 - 1))) a.phi a.theta)

/-- `Fuleren::random_global_r_shift`: global radial-rescale Monte Carlo
move, with the two uniform draws passed explicitly. Both calls to
`energy_calc` (and their writes to the cached field E) are modelled. -/
def random_global_r_shift (s : Fuleren) (beta u1 u2 : ℝ) : Fuleren × Bool :=
  let atoms_old := s.positions
  let e_old := energyOf s
  let s1 : Fuleren := { s with E := e_old }
  let s2 : Fuleren := { s1 with positions := scaledPositions s u1 }
  let e_new := energyOf s2
  let s3 : Fuleren := { s2 with E := e_new }
  if u2 ≤ p_acc beta e_new e_old then (s3, true)
  else ({ s3 with positions := atoms_old }, false)

/-- `Fuleren::mean_r`: arithmetic mean of the atoms' radii. -/
def mean_r (s : Fuleren) : ℝ :=
  (s.positions.map (fun p => p.r)).sum / (s.size : ℝ)

/-- Histogram bin index `(r/dr).floor() as usize` (the f64-to-usize cast
saturates negatives at 0, matched by `Int.toNat`). -/
def binIndex (dr r : ℝ) : ℕ := (⌊r / dr⌋).toNat

/-- The amount `pcf` adds for one pair (i, j):
2*4*pi*r_sr^2 / (size^2 * 2*pi*r_ij*dr). -/
def pcfContrib (s : Fuleren) (dr rsr : ℝ) (p : ℕ × ℕ) : ℝ :=
  2 * 4 * Real.pi * rsr ^ 2 /
    (((s.size ^ 2 : ℕ) : ℝ) * 2 * Real.pi * r_ij s p.1 p.2 * dr)

/-- One iteration of the double loop in `pcf`: add the pair's contribution
to its bin when the bin index is below 100, else leave the histogram as is. -/
def pcfAdd (s : Fuleren) (dr rsr : ℝ) (h : Fin 100 → ℝ) (p : ℕ × ℕ) :
    Fin 100 → ℝ :=
  if hm : binIndex dr (r_ij s p.1 p.2) < 100 then
    Function.update h ⟨binIndex dr (r_ij s p.1 p.2), hm⟩
      (h ⟨binIndex dr (r_ij s p.1 p.2), hm⟩ + pcfContrib s dr rsr p)
  else h

/-- The pairs (i, j) with i < j < n visited by the double loop in `pcf`,
in loop order. -/
def pairList (n : ℕ) : List (ℕ × ℕ) :=
  (List.range n).bind (fun i => ((List.range n).drop (i + 1)).map (fun j => (i, j)))

/-- `Fuleren::pcf`: the 100-bin radial pair-correlation histogram, with
bin width 2.5*mean_r/100. -/
def pcf (s : Fuleren) : Fin 100 → ℝ :=
  (pairList s.size).foldl (pcfAdd s (2.5 * mean_r s / 100) (mean_r s)) (fun _ => 0)

end

theorem r_ij_comm (s : Fuleren) (i j : ℕ) : r_ij s i j = r_ij s j i := by
  unfold r_ij mod_arr
  congr 1
  ring

/-- Claim C9: the pair distance computed by `_r_ij` is symmetric in its two
atom indices. -/
theorem r_ij_symmetric (s : Fuleren) (i j : ℕ) : r_ij s i j = r_ij s j i :=
  r_ij_comm s i j

/-- Claim C2: for beta ≥ 0 and v_new ≤ v_old the Metropolis acceptance
probability computed inline by `random_atom_shift` and
`random_global_r_shift` is exactly 1, so every acceptance draw u in [0, 1]
accepts the move. -/
theorem p_acc_one_of_le (beta v_new v_old : ℝ) (hb : 0 ≤ beta)
    (hv : v_new ≤ v_old) :
    p_acc beta v_new v_old = 1 ∧
      ∀ u : ℝ, 0 ≤ u → u ≤ 1 → u ≤ p_acc beta v_new v_old := by
  have hx : 0 ≤ -beta * (v_new - v_old) := by nlinarith
  have h1 : (1 : ℝ) ≤ Real.exp (-beta * (v_new - v_old)) := by
    have := Real.exp_le_exp.mpr hx
    rwa [Real.exp_zero] at this
  have hp : p_acc beta v_new v_old = 1 := by
    unfold p_acc
    rw [if_neg (not_lt.mpr h1)]
  exact ⟨hp, fun u _ hu1 => hp ▸ hu1⟩

/-- Witness for claim C2 at the concrete input beta = 0, v_new = v_old = 0. -/
theorem p_acc_one_of_le_witness : p_acc 0 0 0 = 1 :=
  (p_acc_one_of_le 0 0 0 le_rfl le_rfl).1

/-- Claim C8: `assert_angles` shifts an out-of-range angle by exactly one
period toward its range, leaves in-range angles and all other fields
unchanged, and is the identity (hence idempotent) on points whose angles
are already in [0, 2*pi] and [0, pi]. -/
theorem assert_angles_spec (p : Point6) :
    ((p.assert_angles).x = p.x ∧ (p.assert_angles).y = p.y ∧
      (p.assert_angles).z = p.z ∧ (p.assert_angles).r = p.r) ∧
    (p.assert_angles).phi =
      (if p.phi < 0 then p.phi + 2 * Real.pi
       else if p.phi > 2 * Real.pi then p.phi - 2 * Real.pi
       else p.phi) ∧
    (p.assert_angles).theta =
      (if p.theta < 0 then p.theta + Real.pi
       else if p.theta > Real.pi then p.theta - Real.pi
       else p.theta) ∧
    (0 ≤ p.phi → p.phi ≤ 2 * Real.pi → 0 ≤ p.theta → p.theta ≤ Real.pi →
      p.assert_angles = p ∧ (p.assert_angles).assert_angles = p.assert_angles) := by
  refine ⟨⟨rfl, rfl, rfl, rfl⟩, rfl, rfl, ?_⟩
  intro h1 h2 h3 h4
  have hp : p.assert_angles = p := by
    unfold Point6.assert_angles
    rw [if_neg (not_lt.mpr h1), if_neg (not_lt.mpr h2),
      if_neg (not_lt.mpr h3), if_neg (not_lt.mpr h4)]
  exact ⟨hp, by rw [hp, hp]⟩

/-- Witness for claim C8 at the concrete in-range point
(0, 0, 0, 1, 1, 1). -/
theorem assert_angles_spec_witness :
    (Point6.mk 0 0 0 1 1 1).assert_angles = Point6.mk 0 0 0 1 1 1 :=
  ((assert_angles_spec (Point6.mk 0 0 0 1 1 1)).2.2.2
    (by norm_num)
    (by show (1 : ℝ) ≤ 2 * Real.pi; nlinarith [Real.pi_gt_three])
    (by norm_num)
    (by show (1 : ℝ) ≤ Real.pi; nlinarith [Real.pi_gt_three])).1

theorem vi_eq_viSpec (s : Fuleren) (i : ℕ) : vi s i = viSpec s i := by
  unfold vi viSpec
  refine Finset.sum_congr rfl (fun j _ => ?_)
  by_cases h1 : r_ij s i j ≤ R1
  · have h2 : r_ij s i j ≤ R2 := le_trans h1 (by norm_num [R1, R2])
    rw [if_pos h1, if_pos h2]
    unfold f_c
    rw [if_pos h1, one_mul]
  · by_cases h2 : r_ij s i j ≤ R2
    · rw [if_neg h1, if_pos h2, if_pos h2]
      unfold f_c
      rw [if_neg h1, if_pos h2]
    · rw [if_neg h1, if_neg h2, if_neg h2]

/-- Claim C1: `energy_calc` returns half the sum over all atoms of the
per-atom contribution, and that contribution equals the spec's
cutoff-weighted form: the sum over other atoms j with r_ij ≤ R2 of
f_c(r_ij) * (v_r − 0.5*(b_ij + b_ji)*v_a), pairs beyond R2 contributing
nothing. -/
theorem energy_calc_spec (s : Fuleren) :
    (energy_calc s).2 = 0.5 * ∑ i ∈ Finset.range s.size, viSpec s i ∧
      ∀ i : ℕ, vi s i = viSpec s i := by
  constructor
  · unfold energy_calc energyOf
    simp only
    exact congrArg _ (Finset.sum_congr rfl (fun i _ => vi_eq_viSpec s i))
  · exact fun i => vi_eq_viSpec s i

/-- Counterexample to claim C3: the spherical triple
(r, phi, theta) = (1, pi, pi/2) satisfies r ≥ 0, phi ∈ [0, 2*pi],
theta ∈ [0, pi], yet the Cartesian reconstruction returns phi = 0, a
discrepancy of pi > 3, far beyond floating-point tolerance. -/
theorem from_cartesian_roundtrip_fails :
    (Point6.from_cartesian (Point6.from_spherical 1 Real.pi (Real.pi / 2)).x
        (Point6.from_spherical 1 Real.pi (Real.pi / 2)).y
        (Point6.from_spherical 1 Real.pi (Real.pi / 2)).z).phi = 0 ∧
      (3 : ℝ) < Real.pi := by
  constructor
  · unfold Point6.from_spherical Point6.from_cartesian
    simp [Real.sin_pi]
  · exact Real.pi_gt_three

/-- Claim C3 (amended): the spherical-to-Cartesian round trip recovers
(r, phi, theta) exactly when r > 0, theta ∈ (0, pi) and phi ∈ [0, pi/2)
(so that atan(y/x) can invert the tangent); for phi outside (-pi/2, pi/2)
the reconstruction differs, as the counterexample shows. -/
theorem from_cartesian_roundtrip (r phi theta : ℝ) (hr : 0 < r)
    (ht0 : 0 < theta) (htpi : theta < Real.pi) (hp0 : 0 ≤ phi)
    (hppi : phi < Real.pi / 2) :
    (Point6.from_cartesian (Point6.from_spherical r phi theta).x
        (Point6.from_spherical r phi theta).y
        (Point6.from_spherical r phi theta).z).r = r ∧
      (Point6.from_cartesian (Point6.from_spherical r phi theta).x
          (Point6.from_spherical r phi theta).y
          (Point6.from_spherical r phi theta).z).phi = phi ∧
      (Point6.from_cartesian (Point6.from_spherical r phi theta).x
          (Point6.from_spherical r phi theta).y
          (Point6.from_spherical r phi theta).z).theta = theta := by
  have hs : 0 < Real.sin theta := Real.sin_pos_of_pos_of_lt_pi ht0 htpi
  have hc : 0 < Real.cos phi := by
    apply Real.cos_pos_of_mem_Ioo
    constructor
    · have := Real.pi_pos
      linarith
    · exact hppi
  have hsq :
      (r * Real.sin theta * Real.cos phi) ^ 2 +
          (r * Real.sin theta * Real.sin phi) ^ 2 + (r * Real.cos theta) ^ 2 =
        r ^ 2 := by
    have c1 := Real.sin_sq_add_cos_sq phi
    have c2 := Real.sin_sq_add_cos_sq theta
    linear_combination (r ^ 2 * Real.sin theta ^ 2) * c1 + r ^ 2 * c2
  have hrt :
      Real.sqrt
          ((r * Real.sin theta * Real.cos phi) ^ 2 +
            (r * Real.sin theta * Real.sin phi) ^ 2 + (r * Real.cos theta) ^ 2) =
        r := by
    rw [hsq]
    exact Real.sqrt_sq hr.le
  refine ⟨?_, ?_, ?_⟩
  · exact hrt
  · show Real.arctan
      ((r * Real.sin theta * Real.sin phi) / (r * Real.sin theta * Real.cos phi)) = phi
    have hd : r * Real.sin theta ≠ 0 := by positivity
    have hdiv :
        (r * Real.sin theta * Real.sin phi) / (r * Real.sin theta * Real.cos phi) =
          Real.tan phi := by
      rw [Real.tan_eq_sin_div_cos, mul_div_mul_left _ _ hd]
    rw [hdiv]
    apply Real.arctan_tan
    · have := Real.pi_pos
      linarith
    · exact hppi
  · show Real.arccos
      (r * Real.cos theta /
        Real.sqrt
          ((r * Real.sin theta * Real.cos phi) ^ 2 +
            (r * Real.sin theta * Real.sin phi) ^ 2 + (r * Real.cos theta) ^ 2)) = theta
    rw [hrt, mul_comm r (Real.cos theta), mul_div_assoc, div_self hr.ne',
      mul_one]
    exact Real.arccos_cos ht0.le htpi.le

/-- Witness for the amended claim C3 at the concrete triple
(r, phi, theta) = (1, 0, pi/2). -/
theorem from_cartesian_roundtrip_witness :
    (Point6.from_cartesian (Point6.from_spherical 1 0 (Real.pi / 2)).x
        (Point6.from_spherical 1 0 (Real.pi / 2)).y
        (Point6.from_spherical 1 0 (Real.pi / 2)).z).r = 1 ∧
      (Point6.from_cartesian (Point6.from_spherical 1 0 (Real.pi / 2)).x
          (Point6.from_spherical 1 0 (Real.pi / 2)).y
          (Point6.from_spherical 1 0 (Real.pi / 2)).z).phi = 0 ∧
      (Point6.from_cartesian (Point6.from_spherical 1 0 (Real.pi / 2)).x
          (Point6.from_spherical 1 0 (Real.pi / 2)).y
          (Point6.from_spherical 1 0 (Real.pi / 2)).z).theta = Real.pi / 2 :=
  from_cartesian_roundtrip 1 0 (Real.pi / 2) (by norm_num)
    (by positivity) (by linarith [Real.pi_pos]) le_rfl
    (by linarith [Real.pi_pos])

/-- Claim C6: in a 2-atom cluster with distinct positions the two per-atom
contributions agree, and when the pair distance is at most R1 the total
energy returned by `energy_calc` is v_r(r) − v_a(r) (the bond order
degenerates to 1 because ksi_ij sums over no third atom). -/
theorem two_atom_energy (s : Fuleren) (p q : Point6)
    (hpos : s.positions = [p, q]) (hsize : s.size = 2)
    (hne : (p.x, p.y, p.z) ≠ (q.x, q.y, q.z)) :
    vi s 0 = vi s 1 ∧
      (r_ij s 0 1 ≤ R1 →
        (energy_calc s).2 = v_r (r_ij s 0 1) - v_a (r_ij s 0 1)) := by
  have hb01 : b_ij s 0 1 = 1 := by
    unfold b_ij ksi_ij
    rw [hsize]
    have hf : (Finset.range 2).filter (fun k => k ≠ 0 ∧ k ≠ 1) = ∅ := by decide
    rw [hf, Finset.sum_empty, add_zero, Real.one_rpow]
  have hb10 : b_ij s 1 0 = 1 := by
    unfold b_ij ksi_ij
    rw [hsize]
    have hf : (Finset.range 2).filter (fun k => k ≠ 1 ∧ k ≠ 0) = ∅ := by decide
    rw [hf, Finset.sum_empty, add_zero, Real.one_rpow]
  have f0 : (Finset.range 2).filter (fun j => j ≠ 0) = {1} := by decide
  have f1 : (Finset.range 2).filter (fun j => j ≠ 1) = {0} := by decide
  have hsym : vi s 0 = vi s 1 := by
    unfold vi
    rw [hsize, f0, f1, Finset.sum_singleton, Finset.sum_singleton,
      r_ij_comm s 1 0, hb01, hb10]
  have hv0 : r_ij s 0 1 ≤ R1 →
      vi s 0 = v_r (r_ij s 0 1) - v_a (r_ij s 0 1) := by
    intro hR1
    unfold vi
    rw [hsize, f0, Finset.sum_singleton, if_pos hR1, hb01, hb10]
    ring
  refine ⟨hsym, fun hR1 => ?_⟩
  show energyOf s = _
  unfold energyOf
  rw [hsize, Finset.sum_range_succ, Finset.sum_range_succ,
    Finset.sum_range_zero, ← hsym, hv0 hR1]
  ring

/-- Witness for claim C6: the concrete 2-atom cluster with atoms at the
origin and at (1, 0, 0), whose pair distance 1 is below R1. -/
theorem two_atom_energy_witness :
    vi (Fuleren.mk [Point6.mk 0 0 0 0 0 0, Point6.mk 1 0 0 1 0 0] 2 0) 0 =
        vi (Fuleren.mk [Point6.mk 0 0 0 0 0 0, Point6.mk 1 0 0 1 0 0] 2 0) 1 ∧
      (energy_calc (Fuleren.mk [Point6.mk 0 0 0 0 0 0, Point6.mk 1 0 0 1 0 0] 2 0)).2 =
        v_r (r_ij (Fuleren.mk [Point6.mk 0 0 0 0 0 0, Point6.mk 1 0 0 1 0 0] 2 0) 0 1) -
          v_a (r_ij (Fuleren.mk [Point6.mk 0 0 0 0 0 0, Point6.mk 1 0 0 1 0 0] 2 0) 0 1) := by
  have hr : r_ij (Fuleren.mk [Point6.mk 0 0 0 0 0 0, Point6.mk 1 0 0 1 0 0] 2 0) 0 1 = 1 := by
    show mod_arr ((1 : ℝ) - 0) (0 - 0) (0 - 0) = 1
    unfold mod_arr
    have h1 : ((1 : ℝ) - 0) ^ 2 + (0 - 0) ^ 2 + (0 - 0) ^ 2 = 1 := by norm_num
    rw [h1, Real.sqrt_one]
  have h := two_atom_energy (Fuleren.mk [Point6.mk 0 0 0 0 0 0, Point6.mk 1 0 0 1 0 0] 2 0)
    (Point6.mk 0 0 0 0 0 0) (Point6.mk 1 0 0 1 0 0) rfl rfl
    (by
      show ((0 : ℝ), (0 : ℝ), (0 : ℝ)) ≠ ((1 : ℝ), (0 : ℝ), (0 : ℝ))
      intro h
      rw [Prod.mk.injEq] at h
      exact absurd h.1 (by norm_num))
  exact ⟨h.1, h.2 (by rw [hr]; norm_num [R1])⟩

theorem from_spherical_zero : Point6.from_spherical 0 0 0 = Point6.new := by
  unfold Point6.from_spherical Point6.new
  ext <;> simp

theorem getD_set_of_ne {α : Type} (l : List α) (m n : ℕ) (a d : α)
    (h : m ≠ n) : (l.set m a).getD n d = l.getD n d := by
  rw [List.getD_eq_getElem?_getD, List.getElem?_set_ne h,
    ← List.getD_eq_getElem?_getD]

/-- Claim C5: `random_atom_shift(i, ...)` leaves every atom other than i
and the cached energy field E unchanged, and on rejection atom i equals
`from_spherical` of its snapshotted pre-move spherical triple. -/
theorem random_atom_shift_frame (s : Fuleren) (i : ℕ)
    (beta u1 u2 u3 u4 : ℝ) :
    (∀ j, j ≠ i →
        (random_atom_shift s i beta u1 u2 u3 u4).1.positions.getD j Point6.new =
          s.positions.getD j Point6.new) ∧
      (random_atom_shift s i beta u1 u2 u3 u4).1.E = s.E ∧
      ((random_atom_shift s i beta u1 u2 u3 u4).2 = false →
        (random_atom_shift s i beta u1 u2 u3 u4).1.positions.getD i Point6.new =
          Point6.from_spherical (pos s i).r (pos s i).phi (pos s i).theta) := by
  unfold random_atom_shift
  dsimp only
  split
  · refine ⟨fun j hj => ?_, rfl, fun hf => by simp at hf⟩
    exact getD_set_of_ne _ _ _ _ _ (Ne.symm hj)
  · refine ⟨fun j hj => ?_, rfl, fun _ => ?_⟩
    · rw [getD_set_of_ne _ _ _ _ _ (Ne.symm hj),
        getD_set_of_ne _ _ _ _ _ (Ne.symm hj)]
    · by_cases hlen : i < s.positions.length
      · rw [List.getD_eq_getElem?_getD,
          List.getElem?_set_eq_of_lt _ (by simpa using hlen)]
        rfl
      · have hle : s.positions.length ≤ i := not_lt.mp hlen
        have h1 : ∀ b : Point6, s.positions.set i b = s.positions := fun b =>
          List.set_eq_of_length_le hle
        rw [h1, h1, List.getD_eq_default _ _ hle]
        have hpos : pos s i = Point6.new := by
          unfold pos
          exact List.getD_eq_default _ _ hle
        rw [hpos]
        exact from_spherical_zero.symm

/-- Witness for claim C5: a 1-atom cluster at the origin, beta = 0 and
acceptance draw 2 > 1, so the move is rejected. -/
theorem random_atom_shift_frame_witness :
    (random_atom_shift (Fuleren.mk [Point6.new] 1 0) 0 0 0 0 0 2).1.positions.getD 1 Point6.new =
        (Fuleren.mk [Point6.new] 1 0).positions.getD 1 Point6.new ∧
      (random_atom_shift (Fuleren.mk [Point6.new] 1 0) 0 0 0 0 0 2).1.E =
        (Fuleren.mk [Point6.new] 1 0).E ∧
      (random_atom_shift (Fuleren.mk [Point6.new] 1 0) 0 0 0 0 0 2).1.positions.getD 0 Point6.new =
        Point6.from_spherical (pos (Fuleren.mk [Point6.new] 1 0) 0).r
          (pos (Fuleren.mk [Point6.new] 1 0) 0).phi
          (pos (Fuleren.mk [Point6.new] 1 0) 0).theta := by
  have h := random_atom_shift_frame (Fuleren.mk [Point6.new] 1 0) 0 0 0 0 0 2
  refine ⟨h.1 1 (by norm_num), h.2.1, h.2.2 ?_⟩
  have hfe : (Finset.range 1).filter (fun j => j ≠ 0) = ∅ := by decide
  have hvi : ∀ t : Fuleren, t.size = 1 → vi t 0 = 0 := by
    intro t ht
    unfold vi
    rw [ht, hfe, Finset.sum_empty]
  have hpacc : p_acc 0 0 0 = 1 := by
    unfold p_acc
    norm_num
  unfold random_atom_shift
  dsimp only
  rw [hvi _ rfl, hvi _ rfl, hpacc, if_neg (by norm_num : ¬ (2 : ℝ) ≤ 1)]

theorem energyOf_irrel_E (P : List Point6) (n : ℕ) (e1 e2 : ℝ) :
    energyOf (Fuleren.mk P n e1) = energyOf (Fuleren.mk P n e2) := rfl

/-- Claim C4: when `random_global_r_shift` rejects, the position array is
restored to the pre-move snapshot, but the cached energy field E keeps the
rejected (scaled) configuration's energy e_new instead of being restored
to the pre-move energy. -/
theorem random_global_r_shift_stale_energy (s : Fuleren) (beta u1 u2 : ℝ)
    (h : (random_global_r_shift s beta u1 u2).2 = false) :
    (random_global_r_shift s beta u1 u2).1.positions = s.positions ∧
      (random_global_r_shift s beta u1 u2).1.E =
        energyOf { s with positions := scaledPositions s u1 } := by
  by_cases hc : u2 ≤ p_acc beta
      (energyOf (Fuleren.mk (scaledPositions s u1) s.size (energyOf s)))
      (energyOf s)
  · exfalso
    unfold random_global_r_shift at h
    dsimp only at h
    rw [if_pos hc] at h
    simp at h
  · unfold random_global_r_shift
    dsimp only
    rw [if_neg hc]
    exact ⟨rfl, energyOf_irrel_E _ _ _ _⟩

/-- Witness for claim C4: the empty cluster with beta = 0 and acceptance
draw 2 > 1, so the global move is rejected. -/
theorem random_global_r_shift_stale_energy_witness :
    (random_global_r_shift (Fuleren.mk [] 0 0) 0 0 2).1.positions =
        (Fuleren.mk [] 0 0).positions ∧
      (random_global_r_shift (Fuleren.mk [] 0 0) 0 0 2).1.E =
        energyOf { Fuleren.mk [] 0 0 with
          positions := scaledPositions (Fuleren.mk [] 0 0) 0 } := by
  apply random_global_r_shift_stale_energy
  have he : ∀ t : Fuleren, t.size = 0 → energyOf t = 0 := by
    intro t ht
    unfold energyOf
    rw [ht, Finset.range_zero, Finset.sum_empty, mul_zero]
  have hpacc : p_acc 0 0 0 = 1 := by
    unfold p_acc
    norm_num
  unfold random_global_r_shift
  dsimp only
  rw [he _ rfl, he _ rfl, hpacc, if_neg (by norm_num : ¬ (2 : ℝ) ≤ 1)]

theorem pcf_foldl (s : Fuleren) (dr rsr : ℝ) (m : Fin 100) :
    ∀ (l : List (ℕ × ℕ)) (h : Fin 100 → ℝ),
      (l.foldl (pcfAdd s dr rsr) h) m =
        h m +
          ((l.filter
              (fun p => binIndex dr (r_ij s p.1 p.2) = (m : ℕ))).map
            (pcfContrib s dr rsr)).sum := by
  intro l
  induction l with
  | nil => intro h; simp
  | cons p l ih =>
    intro h
    rw [List.foldl_cons, ih]
    by_cases hb : binIndex dr (r_ij s p.1 p.2) = (m : ℕ)
    · have hlt : binIndex dr (r_ij s p.1 p.2) < 100 := by
        rw [hb]; exact m.isLt
      have hupdate : pcfAdd s dr rsr h p m = h m + pcfContrib s dr rsr p := by
        unfold pcfAdd
        rw [dif_pos hlt]
        have hfin : (⟨binIndex dr (r_ij s p.1 p.2), hlt⟩ : Fin 100) = m :=
          Fin.ext hb
        rw [hfin, Function.update_same]
      rw [hupdate, List.filter_cons_of_pos (by simpa using hb), List.map_cons,
        List.sum_cons]
      ring
    · have hskip : pcfAdd s dr rsr h p m = h m := by
        unfold pcfAdd
        split
        · apply Function.update_noteq
          intro hEq
          exact hb (congrArg Fin.val hEq).symm
        · rfl
      rw [hskip, List.filter_cons_of_neg (by simpa using hb)]

/-- Claim C7: pcf is a 100-bin histogram (the codomain is indexed by
Fin 100) with bin width dr = 2.5*mean_r/100; bin m collects exactly the
pairs (i, j), i < j, whose bin index floor(r_ij/dr) equals m (hence is
below 100), each contributing 2*4*pi*mean_r^2/(N^2*2*pi*r_ij*dr); pairs
whose bin index is 100 or more contribute to no bin. -/
theorem pcf_histogram (s : Fuleren) (hmr : 0 < mean_r s) (m : Fin 100) :
    pcf s m =
      (((pairList s.size).filter
          (fun p => binIndex (2.5 * mean_r s / 100) (r_ij s p.1 p.2) = (m : ℕ))).map
        (pcfContrib s (2.5 * mean_r s / 100) (mean_r s))).sum := by
  unfold pcf
  rw [pcf_foldl s (2.5 * mean_r s / 100) (mean_r s) m (pairList s.size)
    (fun _ => 0)]
  simp

/-- Witness for claim C7: a 2-atom cluster whose atoms both carry radius 1,
so the mean radius is 1 > 0, at bin 0. -/
theorem pcf_histogram_witness :
    pcf (Fuleren.mk [Point6.mk 0 0 0 1 0 0, Point6.mk 0 0 0 1 0 0] 2 0) (0 : Fin 100) =
      (((pairList (Fuleren.mk [Point6.mk 0 0 0 1 0 0, Point6.mk 0 0 0 1 0 0] 2 0).size).filter
          (fun p =>
            binIndex
                (2.5 * mean_r (Fuleren.mk [Point6.mk 0 0 0 1 0 0, Point6.mk 0 0 0 1 0 0] 2 0) / 100)
                (r_ij (Fuleren.mk [Point6.mk 0 0 0 1 0 0, Point6.mk 0 0 0 1 0 0] 2 0) p.1 p.2) =
              ((0 : Fin 100) : ℕ))).map
        (pcfContrib (Fuleren.mk [Point6.mk 0 0 0 1 0 0, Point6.mk 0 0 0 1 0 0] 2 0)
          (2.5 * mean_r (Fuleren.mk [Point6.mk 0 0 0 1 0 0, Point6.mk 0 0 0 1 0 0] 2 0) / 100)
          (mean_r (Fuleren.mk [Point6.mk 0 0 0 1 0 0, Point6.mk 0 0 0 1 0 0] 2 0)))).sum := by
  apply pcf_histogram
  have hm : mean_r (Fuleren.mk [Point6.mk 0 0 0 1 0 0, Point6.mk 0 0 0 1 0 0] 2 0) = 1 := by
    unfold mean_r
    norm_num
  rw [hm]
  norm_num
